import Mathlib

/-!
Shallow embedding of `farcy/helpers.py` (the diff-patch line mapper and the
issue-reconciliation helpers) together with proofs of the specification
claims about them.

Strings are handled through their underlying character lists; Python's
`str.split(sep)` (which always returns `n + 1` segments for `n` separator
occurrences, in particular `[""]` on the empty string) is embedded as
`splitOnChar`.  Python exceptions raised by `added_lines`
(`IndexError`/`AttributeError` from hunk-header parsing, `TypeError` from
arithmetic on an undefined `lineno`, `AssertionError` from the final
`assert`) are embedded as an `Except` error result.  Python `dict`s are
embedded as insertion-ordered association lists whose update semantics
(`dictInsert`, `dictExtend`) match `dict.__setitem__` / `defaultdict.extend`.
-/

namespace Farcy

/-- Prepend a character to the first segment of a nonempty segment list
(helper for `splitOnChar`). -/
def consHead (c : Char) : List (List Char) → List (List Char)
  | [] => [[c]]
  | l :: ls => (c :: l) :: ls

/-- Python's `str.split(sep)` for a one-character separator: always returns
one more segment than there are separator occurrences; `splitOnChar sep [] = [[]]`
just as `"".split(sep) == ['']`. -/
def splitOnChar (sep : Char) : List Char → List (List Char)
  | [] => [[]]
  | c :: rest =>
    if c = sep then [] :: splitOnChar sep rest
    else consHead c (splitOnChar sep rest)

/-- Inverse of `splitOnChar`: interleave the separator between segments
(Python's `sep.join`). -/
def joinOnChar (sep : Char) : List (List Char) → List Char
  | [] => []
  | [l] => l
  | l :: l' :: ls => l ++ sep :: joinOnChar sep (l' :: ls)

/-- The literal Python string `"\ No newline at end of file"` compared
against whole lines in `added_lines`. -/
def noNewlineMarker : List Char := "\\ No newline at end of file".data

/-- The Python exceptions that `added_lines` can raise, embedded as error
values: `IndexError` from `line.split('+')[1]` when the header holds no `'+'`,
`AttributeError` from `NUMBER_RE.match(...).group(1)` when no digits follow
the `'+'`, `TypeError` from `lineno + 1` / use of `lineno` while it is still
`None`, and `AssertionError` from `assert line.startswith('-')`. -/
inductive PatchError
  | indexError
  | attributeError
  | typeError
  | assertionError
deriving DecidableEq

deriving instance DecidableEq for Except

/-- Numeric value of a digit run (the `int(...)` applied to the regex group). -/
def digitsVal (ds : List Char) : Nat :=
  ds.foldl (fun a c => a * 10 + (c.toNat - 48)) 0

/-- Modelled from the spec: `NUMBER_RE` lives in `farcy/const.py`, which is
not part of the sources; per the spec the hunk header carries
`+<new_start>[,<count>]` and the `new_start` integer is the run of decimal
digits directly after the `'+'`.  This embeds
`int(NUMBER_RE.match(line.split('+')[1]).group(1))`: missing `'+'` segment
raises `IndexError`, a failed match (no leading digit) raises
`AttributeError` on `.group`. -/
def parseNewStart (line : List Char) : Except PatchError Nat :=
  match (splitOnChar '+' line).get? 1 with
  | none => .error .indexError
  | some s =>
    let ds := s.takeWhile Char.isDigit
    if ds.isEmpty then .error .attributeError else .ok (digitsVal ds)

/-- The outcome of the `if`/`elif` chain of `added_lines` on one line, in
the source's test order: `startswith('@@')`, `startswith(' ')`,
`startswith('+')`, equality with the no-newline marker, and finally the
`assert line.startswith('-')` (whose failure is the `junk` case). -/
inductive LineKind
  | header (res : Except PatchError Nat)
  | context
  | plus
  | marker
  | minus
  | junk
deriving DecidableEq

/-- Classify one patch line exactly as the `if`/`elif` chain of
`added_lines` does. -/
def classify (line : List Char) : LineKind :=
  if "@@".data.isPrefixOf line then .header (parseNewStart line)
  else if " ".data.isPrefixOf line then .context
  else if "+".data.isPrefixOf line then .plus
  else if line = noNewlineMarker then .marker
  else if "-".data.isPrefixOf line then .minus
  else .junk

/-- Python `dict` assignment `d[k] = v` on an insertion-ordered association
list: an existing key keeps its position and gets the new value, a new key
is appended. -/
def dictInsert (d : List (Nat × Nat)) (k v : Nat) : List (Nat × Nat) :=
  if d.any (fun p => decide (p.1 = k)) then
    d.map (fun p => if p.1 = k then (k, v) else p)
  else d ++ [(k, v)]

/-- Python `k in d` for the embedded dictionary. -/
def dictHasKey (d : List (Nat × Nat)) (k : Nat) : Bool :=
  d.any (fun p => decide (p.1 = k))

/-- The loop of `added_lines` over the split lines, carrying `lineno`
(`None` until the first hunk header), the `position` counter, and the
`added` dictionary. -/
def addedLinesAux : List (List Char) → Option Nat → Nat → List (Nat × Nat) →
    Except PatchError (List (Nat × Nat))
  | [], _, _, added => .ok added
  | line :: rest, lineno, position, added =>
    match classify line with
    | .header (.error e) => .error e
    | .header (.ok n) => addedLinesAux rest (some n) (position + 1) added
    | .context =>
      match lineno with
      | none => .error .typeError
      | some n => addedLinesAux rest (some (n + 1)) (position + 1) added
    | .plus =>
      match lineno with
      | none => .error .typeError
      | some n =>
        addedLinesAux rest (some (n + 1)) (position + 1) (dictInsert added n position)
    | .marker => addedLinesAux rest lineno position added
    | .minus => addedLinesAux rest lineno (position + 1) added
    | .junk => .error .assertionError

/-- `patch.split('\n')` as performed by `added_lines`. -/
def patchLines (patch : String) : List (List Char) :=
  splitOnChar '\n' patch.data

/-- `added_lines(patch)` from `farcy/helpers.py`: mapping of post-change
line numbers of added lines to diff positions, or the Python exception the
scan raises. -/
def added_lines (patch : String) : Except PatchError (List (Nat × Nat)) :=
  addedLinesAux (patchLines patch) none 0 []

/-- Reference scan extracting, for each `'+'` line, the pair
`(post-change line number, diff position)` in scan order, following the same
line-numbering rules as `added_lines` (header sets `new_start`, context and
added lines advance the line number, the marker does not advance the
position counter). -/
def scanEventsAux : List (List Char) → Option Nat → Nat → List (Nat × Nat)
  | [], _, _ => []
  | line :: rest, lineno, position =>
    match classify line with
    | .header (.error _) => []
    | .header (.ok n) => scanEventsAux rest (some n) (position + 1)
    | .context => scanEventsAux rest (lineno.map (· + 1)) (position + 1)
    | .plus =>
      (lineno.getD 0, position) :: scanEventsAux rest (lineno.map (· + 1)) (position + 1)
    | .marker => scanEventsAux rest lineno position
    | .minus => scanEventsAux rest lineno (position + 1)
    | .junk => []

/-- The `(line number, position)` pairs of the added lines of a patch. -/
def addedEvents (patch : String) : List (Nat × Nat) :=
  scanEventsAux (patchLines patch) none 0

/-- Fold a list of `(key, value)` events into the dictionary. -/
def insertEvents (added : List (Nat × Nat)) (evs : List (Nat × Nat)) : List (Nat × Nat) :=
  evs.foldl (fun d e => dictInsert d e.1 e.2) added

/-- Well-formedness of a line list (the boolean argument records whether a
hunk header has been seen): every line is a parseable hunk header, a context
line, an added line, a removed line, or the no-newline marker, and a hunk
header precedes any context/added/removed line. -/
def wfAux : List (List Char) → Bool → Bool
  | [], _ => true
  | line :: rest, seen =>
    match classify line with
    | .header (.error _) => false
    | .header (.ok _) => wfAux rest true
    | .context => seen && wfAux rest seen
    | .plus => seen && wfAux rest seen
    | .marker => wfAux rest seen
    | .minus => seen && wfAux rest seen
    | .junk => false

/-- A patch is well formed when its split lines are. -/
def WellFormedPatch (patch : String) : Bool :=
  wfAux (patchLines patch) false

/-- Some `'+'` line occurs before any `'@@'` hunk-header line. -/
def addedBeforeHeader : List (List Char) → Bool
  | [] => false
  | line :: rest =>
    match classify line with
    | .header _ => false
    | .plus => true
    | _ => addedBeforeHeader rest

/-- A line on which the scan fails regardless of the scan state: a hunk
header whose `new_start` is missing or non-numeric, or a content line with
an unrecognized prefix. -/
def badLine (line : List Char) : Bool :=
  match classify line with
  | .header (.error _) => true
  | .junk => true
  | _ => false

/-- The patch text with every line equal to the no-newline marker deleted. -/
def deleteNoNewlineLines (patch : String) : String :=
  String.mk (joinOnChar '\n'
    ((patchLines patch).filter (fun l => decide (l ≠ noNewlineMarker))))

/-- Modelled from the spec: the module-level constant
`IS_FARCY_COMMENT = FARCY_COMMENT_START.split('v')[0]`.  The value of
`FARCY_COMMENT_START` lives in `farcy/const.py`, which is not part of the
sources, so the development is parameterized by it (`start`); the spec fixes
only that the comment prefix is the start marker truncated at its first
version-delimiter character `'v'`. -/
def IS_FARCY_COMMENT (start : String) : List Char :=
  (splitOnChar 'v' start.data).headD []

/-- `is_farcy_comment(text)`: `text.startswith(IS_FARCY_COMMENT)`,
parameterized by the `FARCY_COMMENT_START` constant. -/
def is_farcy_comment (start text : String) : Bool :=
  (IS_FARCY_COMMENT start).isPrefixOf text.data

/-- `extract_issues(text)`: empty unless `text` is a Farcy comment,
otherwise every line after the first with its first two characters removed
(`line[2:]` of `text.split('\n')[1:]`). -/
def extract_issues (start text : String) : List String :=
  if is_farcy_comment start text then
    ((splitOnChar '\n' text.data).drop 1).map (fun l => String.mk (l.drop 2))
  else []

/-- A review-comment record as consumed by `issues_by_line`: a `path`, a
diff `position`, and a `body`. -/
structure Comment where
  path : String
  position : Int
  body : String
deriving DecidableEq

/-- `filter_comments_by_path(comments, path)`. -/
def filter_comments_by_path (comments : List Comment) (path : String) : List Comment :=
  comments.filter (fun c => decide (c.path = path))

/-- `defaultdict(list)` update `d[k].extend(vs)` on an insertion-ordered
association list: an existing key keeps its position and its list grows at
the end, an absent key is appended with `vs`. -/
def dictExtend (d : List (Int × List String)) (k : Int) (vs : List String) :
    List (Int × List String) :=
  if d.any (fun p => decide (p.1 = k)) then
    d.map (fun p => if p.1 = k then (p.1, p.2 ++ vs) else p)
  else d ++ [(k, vs)]

/-- `issues_by_line(comments, path)`: for each comment with the given path,
in order, extend the entry at its position with the issues extracted from
its body, skipping comments whose extraction is empty. -/
def issues_by_line (start : String) (comments : List Comment) (path : String) :
    List (Int × List String) :=
  (filter_comments_by_path comments path).foldl
    (fun d c =>
      let issues := extract_issues start c.body
      if issues.isEmpty then d else dictExtend d c.position issues) []

/-- Python `d.get(k, [])` on the embedded issue dictionary. -/
def dictGet (d : List (Int × List String)) (k : Int) : List String :=
  match d.find? (fun p => decide (p.1 = k)) with
  | some p => p.2
  | none => []

/-- Python `k in d` on the embedded issue dictionary. -/
def hasKeyI (d : List (Int × List String)) (k : Int) : Bool :=
  d.any (fun p => decide (p.1 = k))

/-- `subtract_issues_by_line(by_line, by_line2)`: for each entry of
`by_line` in order, keep the values not present in `by_line2`'s list for the
same key, dropping entries whose filtered list is empty. -/
def subtract_issues_by_line (by_line by_line2 : List (Int × List String)) :
    List (Int × List String) :=
  by_line.foldl
    (fun result kv =>
      let exclude := dictGet by_line2 kv.1
      let filtered := kv.2.filter (fun v => decide (v ∉ exclude))
      if filtered.isEmpty then result else result ++ [(kv.1, filtered)])
    []

/-- Recursive form of the `subtract_issues_by_line` loop (proof helper). -/
def subtractAux (by_line2 : List (Int × List String)) :
    List (Int × List String) → List (Int × List String)
  | [] => []
  | kv :: rest =>
    let exclude := dictGet by_line2 kv.1
    let filtered := kv.2.filter (fun v => decide (v ∉ exclude))
    if filtered.isEmpty then subtractAux by_line2 rest
    else (kv.1, filtered) :: subtractAux by_line2 rest

end Farcy

namespace Farcy

theorem splitOnChar_ne_nil (sep : Char) (cs : List Char) : splitOnChar sep cs ≠ [] := by
  induction cs with
  | nil => simp [splitOnChar]
  | cons c rest ih =>
    by_cases h : c = sep
    · simp [splitOnChar, h]
    · simp only [splitOnChar, if_neg h]
      cases hs : splitOnChar sep rest with
      | nil => exact absurd hs ih
      | cons l ls => simp [consHead]

theorem splitOnChar_of_not_mem (sep : Char) (l : List Char) (h : sep ∉ l) :
    splitOnChar sep l = [l] := by
  induction l with
  | nil => rfl
  | cons c rest ih =>
    simp only [List.mem_cons, not_or] at h
    simp only [splitOnChar]
    rw [if_neg (Ne.symm h.1), ih h.2]
    rfl

theorem splitOnChar_append_cons (sep : Char) (l rest : List Char) (h : sep ∉ l) :
    splitOnChar sep (l ++ sep :: rest) = l :: splitOnChar sep rest := by
  induction l with
  | nil => simp [splitOnChar]
  | cons c t ih =>
    simp only [List.mem_cons, not_or] at h
    simp only [List.cons_append, splitOnChar, List.append_eq]
    rw [if_neg (Ne.symm h.1), ih h.2]
    rfl

theorem splitOnChar_append_sep (sep : Char) (cs : List Char) :
    splitOnChar sep (cs ++ [sep]) = splitOnChar sep cs ++ [[]] := by
  induction cs with
  | nil => simp [splitOnChar]
  | cons c rest ih =>
    by_cases h : c = sep
    · simp [splitOnChar, h, ih]
    · obtain ⟨m, ms, hs⟩ := List.exists_cons_of_ne_nil (splitOnChar_ne_nil sep rest)
      simp only [List.cons_append, splitOnChar, List.append_eq]
      rw [if_neg h, if_neg h, ih, hs]
      rfl

theorem not_mem_of_mem_splitOnChar (sep : Char) (cs : List Char) :
    ∀ l ∈ splitOnChar sep cs, sep ∉ l := by
  induction cs with
  | nil =>
    intro l hl
    simp only [splitOnChar, List.mem_singleton] at hl
    simp [hl]
  | cons c rest ih =>
    intro l hl
    obtain ⟨m, ms, hs⟩ := List.exists_cons_of_ne_nil (splitOnChar_ne_nil sep rest)
    have hmem_m : m ∈ splitOnChar sep rest := by
      rw [hs]; exact List.mem_cons_self m ms
    have hmem_ms : ∀ x ∈ ms, x ∈ splitOnChar sep rest := by
      intro x hx; rw [hs]; exact List.mem_cons_of_mem m hx
    by_cases h : c = sep
    · simp only [splitOnChar, if_pos h, List.mem_cons] at hl
      rcases hl with rfl | hl
      · simp
      · exact ih l hl
    · simp only [splitOnChar, if_neg h, hs, consHead, List.mem_cons] at hl
      rcases hl with rfl | hl
      · intro hmem
        rcases List.mem_cons.mp hmem with h' | hmem
        · exact h h'.symm
        · exact ih m hmem_m hmem
      · exact ih l (hmem_ms l hl)

theorem splitOnChar_joinOnChar (sep : Char) (ls : List (List Char)) (hne : ls ≠ [])
    (h : ∀ l ∈ ls, sep ∉ l) : splitOnChar sep (joinOnChar sep ls) = ls := by
  induction ls with
  | nil => exact absurd rfl hne
  | cons l ls ih =>
    cases ls with
    | nil =>
      simp only [joinOnChar]
      exact splitOnChar_of_not_mem sep l (h l (List.mem_cons_self l []))
    | cons l' ls' =>
      simp only [joinOnChar]
      rw [splitOnChar_append_cons sep l _ (h l (List.mem_cons_self l _))]
      rw [ih (by simp) (fun m hm => h m (List.mem_cons_of_mem l hm))]

theorem addedLinesAux_eq_ok (lines : List (List Char)) :
    ∀ (lineno : Option Nat) (position : Nat) (added : List (Nat × Nat)),
    wfAux lines lineno.isSome = true →
    addedLinesAux lines lineno position added =
      Except.ok (insertEvents added (scanEventsAux lines lineno position)) := by
  induction lines with
  | nil => intro lineno position added _; rfl
  | cons line rest ih =>
    intro lineno position added hwf
    cases hcl : classify line with
    | header res =>
      cases res with
      | error e => simp [wfAux, hcl] at hwf
      | ok n =>
        simp only [wfAux, hcl] at hwf
        simp only [addedLinesAux, scanEventsAux, hcl]
        exact ih (some n) (position + 1) added (by simpa using hwf)
    | context =>
      simp only [wfAux, hcl, Bool.and_eq_true] at hwf
      cases lineno with
      | none => simp at hwf
      | some n =>
        simp only [addedLinesAux, scanEventsAux, hcl, Option.map_some']
        exact ih (some (n + 1)) (position + 1) added (by simpa using hwf.2)
    | plus =>
      simp only [wfAux, hcl, Bool.and_eq_true] at hwf
      cases lineno with
      | none => simp at hwf
      | some n =>
        simp only [addedLinesAux, scanEventsAux, hcl, Option.map_some', Option.getD_some,
          insertEvents, List.foldl_cons]
        exact ih (some (n + 1)) (position + 1) (dictInsert added n position)
          (by simpa using hwf.2)
    | marker =>
      simp only [wfAux, hcl] at hwf
      simp only [addedLinesAux, scanEventsAux, hcl]
      exact ih lineno position added hwf
    | minus =>
      simp only [wfAux, hcl, Bool.and_eq_true] at hwf
      simp only [addedLinesAux, scanEventsAux, hcl]
      exact ih lineno (position + 1) added hwf.2
    | junk => simp [wfAux, hcl] at hwf

theorem dictHasKey_dictInsert (d : List (Nat × Nat)) (k v k' : Nat) :
    dictHasKey (dictInsert d k v) k' = true ↔ k' = k ∨ dictHasKey d k' = true := by
  unfold dictHasKey dictInsert
  by_cases hd : d.any (fun p => decide (p.1 = k)) = true
  · rw [if_pos hd, List.any_map]
    have hkey : ∀ p : Nat × Nat, (if p.1 = k then (k, v) else p).1 = p.1 := by
      intro p; by_cases hp : p.1 = k <;> simp [hp]
    constructor
    · intro h
      rcases List.any_eq_true.mp h with ⟨p, hp, hpk⟩
      simp only [Function.comp] at hpk
      rw [hkey p] at hpk
      exact Or.inr (List.any_eq_true.mpr ⟨p, hp, hpk⟩)
    · rintro (rfl | h)
      · rcases List.any_eq_true.mp hd with ⟨p, hp, hpk⟩
        refine List.any_eq_true.mpr ⟨p, hp, ?_⟩
        simp only [Function.comp]
        rw [hkey p]
        exact hpk
      · rcases List.any_eq_true.mp h with ⟨p, hp, hpk⟩
        refine List.any_eq_true.mpr ⟨p, hp, ?_⟩
        simp only [Function.comp]
        rw [hkey p]
        exact hpk
  · rw [if_neg hd, List.any_append]
    simp only [List.any_cons, List.any_nil, Bool.or_false, Bool.or_eq_true,
      decide_eq_true_eq]
    constructor
    · rintro (h | h)
      · exact Or.inr h
      · exact Or.inl h.symm
    · rintro (rfl | h)
      · exact Or.inr rfl
      · exact Or.inl h

theorem dictHasKey_insertEvents (evs : List (Nat × Nat)) :
    ∀ (d : List (Nat × Nat)) (k : Nat),
    dictHasKey (insertEvents d evs) k = true ↔
      dictHasKey d k = true ∨ k ∈ evs.map Prod.fst := by
  induction evs with
  | nil => intro d k; simp [insertEvents]
  | cons e evs ih =>
    intro d k
    simp only [insertEvents, List.foldl_cons]
    rw [show (List.foldl (fun d e => dictInsert d e.1 e.2) (dictInsert d e.1 e.2) evs) =
      insertEvents (dictInsert d e.1 e.2) evs from rfl, ih]
    rw [dictHasKey_dictInsert]
    simp only [List.map_cons, List.mem_cons]
    tauto

theorem scanEventsAux_le (lines : List (List Char)) :
    ∀ (lineno : Option Nat) (position : Nat),
    ∀ e ∈ scanEventsAux lines lineno position, position ≤ e.2 := by
  induction lines with
  | nil => intro _ _ e he; simp [scanEventsAux] at he
  | cons line rest ih =>
    intro lineno position e he
    cases hcl : classify line with
    | header res =>
      cases res with
      | error e' => simp [scanEventsAux, hcl] at he
      | ok n =>
        simp only [scanEventsAux, hcl] at he
        exact Nat.le_of_succ_le (ih (some n) (position + 1) e he)
    | context =>
      simp only [scanEventsAux, hcl] at he
      exact Nat.le_of_succ_le (ih _ _ e he)
    | plus =>
      simp only [scanEventsAux, hcl, List.mem_cons] at he
      rcases he with rfl | he
      · exact Nat.le_refl _
      · exact Nat.le_of_succ_le (ih _ _ e he)
    | marker =>
      simp only [scanEventsAux, hcl] at he
      exact ih _ _ e he
    | minus =>
      simp only [scanEventsAux, hcl] at he
      exact Nat.le_of_succ_le (ih _ _ e he)
    | junk => simp [scanEventsAux, hcl] at he

theorem scanEventsAux_pairwise (lines : List (List Char)) :
    ∀ (lineno : Option Nat) (position : Nat),
    List.Pairwise (fun a b : Nat × Nat => a.2 < b.2) (scanEventsAux lines lineno position) := by
  induction lines with
  | nil => intro _ _; simp [scanEventsAux]
  | cons line rest ih =>
    intro lineno position
    cases hcl : classify line with
    | header res =>
      cases res with
      | error e => simp [scanEventsAux, hcl]
      | ok n => simp only [scanEventsAux, hcl]; exact ih _ _
    | context => simp only [scanEventsAux, hcl]; exact ih _ _
    | plus =>
      simp only [scanEventsAux, hcl]
      refine List.Pairwise.cons ?_ (ih _ _)
      intro e he
      exact Nat.lt_of_succ_le (scanEventsAux_le rest _ _ e he)
    | marker => simp only [scanEventsAux, hcl]; exact ih _ _
    | minus => simp only [scanEventsAux, hcl]; exact ih _ _
    | junk => simp [scanEventsAux, hcl]

theorem classify_noNewlineMarker : classify noNewlineMarker = .marker := by decide

theorem classify_eq_marker (l : List Char) (h : classify l = .marker) :
    l = noNewlineMarker := by
  simp only [classify] at h
  split_ifs at h
  all_goals simp_all

theorem addedLinesAux_filter_marker (lines : List (List Char)) :
    ∀ (lineno : Option Nat) (position : Nat) (added : List (Nat × Nat)),
    addedLinesAux (lines.filter (fun l => decide (l ≠ noNewlineMarker))) lineno position added =
      addedLinesAux lines lineno position added := by
  induction lines with
  | nil => intro _ _ _; rfl
  | cons line rest ih =>
    intro lineno position added
    by_cases hm : line = noNewlineMarker
    · subst hm
      have hp : decide (noNewlineMarker ≠ noNewlineMarker) = false := by simp
      rw [List.filter_cons, hp]
      simp only [Bool.false_eq_true, if_false]
      simp only [addedLinesAux, classify_noNewlineMarker]
      exact ih lineno position added
    · have hp : decide (line ≠ noNewlineMarker) = true := by simp [hm]
      rw [List.filter_cons, hp]
      simp only [if_true]
      cases hcl : classify line with
      | header res =>
        cases res with
        | error e => simp [addedLinesAux, hcl]
        | ok n => simp only [addedLinesAux, hcl]; exact ih _ _ _
      | context =>
        cases lineno with
        | none => simp [addedLinesAux, hcl]
        | some n => simp only [addedLinesAux, hcl]; exact ih _ _ _
      | plus =>
        cases lineno with
        | none => simp [addedLinesAux, hcl]
        | some n => simp only [addedLinesAux, hcl]; exact ih _ _ _
      | marker => exact absurd (classify_eq_marker line hcl) hm
      | minus => simp only [addedLinesAux, hcl]; exact ih _ _ _
      | junk => simp [addedLinesAux, hcl]

theorem addedLinesAux_error_of_badLine (lines : List (List Char)) :
    ∀ (lineno : Option Nat) (position : Nat) (added : List (Nat × Nat)),
    (∃ l ∈ lines, badLine l = true) →
    ∃ e, addedLinesAux lines lineno position added = Except.error e := by
  induction lines with
  | nil => intro _ _ _ h; rcases h with ⟨l, hl, _⟩; simp at hl
  | cons line rest ih =>
    intro lineno position added h
    rcases h with ⟨l, hl, hb⟩
    rcases List.mem_cons.mp hl with rfl | hl
    · cases hcl : classify l with
      | header res =>
        cases res with
        | error e => exact ⟨e, by simp [addedLinesAux, hcl]⟩
        | ok n => simp [badLine, hcl] at hb
      | context => simp [badLine, hcl] at hb
      | plus => simp [badLine, hcl] at hb
      | marker => simp [badLine, hcl] at hb
      | minus => simp [badLine, hcl] at hb
      | junk => exact ⟨.assertionError, by simp [addedLinesAux, hcl]⟩
    · cases hcl : classify line with
      | header res =>
        cases res with
        | error e => exact ⟨e, by simp [addedLinesAux, hcl]⟩
        | ok n =>
          simp only [addedLinesAux, hcl]
          exact ih _ _ _ ⟨l, hl, hb⟩
      | context =>
        cases lineno with
        | none => exact ⟨.typeError, by simp [addedLinesAux, hcl]⟩
        | some n =>
          simp only [addedLinesAux, hcl]
          exact ih _ _ _ ⟨l, hl, hb⟩
      | plus =>
        cases lineno with
        | none => exact ⟨.typeError, by simp [addedLinesAux, hcl]⟩
        | some n =>
          simp only [addedLinesAux, hcl]
          exact ih _ _ _ ⟨l, hl, hb⟩
      | marker =>
        simp only [addedLinesAux, hcl]
        exact ih _ _ _ ⟨l, hl, hb⟩
      | minus =>
        simp only [addedLinesAux, hcl]
        exact ih _ _ _ ⟨l, hl, hb⟩
      | junk => exact ⟨.assertionError, by simp [addedLinesAux, hcl]⟩

theorem addedLinesAux_error_of_addedBeforeHeader (lines : List (List Char)) :
    ∀ (position : Nat) (added : List (Nat × Nat)),
    addedBeforeHeader lines = true →
    ∃ e, addedLinesAux lines none position added = Except.error e := by
  induction lines with
  | nil => intro _ _ h; simp [addedBeforeHeader] at h
  | cons line rest ih =>
    intro position added h
    cases hcl : classify line with
    | header res => simp [addedBeforeHeader, hcl] at h
    | context => exact ⟨.typeError, by simp [addedLinesAux, hcl]⟩
    | plus => exact ⟨.typeError, by simp [addedLinesAux, hcl]⟩
    | marker =>
      simp only [addedBeforeHeader, hcl] at h
      simp only [addedLinesAux, hcl]
      exact ih _ _ h
    | minus =>
      simp only [addedBeforeHeader, hcl] at h
      simp only [addedLinesAux, hcl]
      exact ih _ _ h
    | junk => exact ⟨.assertionError, by simp [addedLinesAux, hcl]⟩

theorem isPrefixOf_append_right (p a b : List Char) (h : p.isPrefixOf a = true) :
    p.isPrefixOf (a ++ b) = true := by
  induction p generalizing a with
  | nil => simp [List.isPrefixOf]
  | cons x p ih =>
    cases a with
    | nil => simp [List.isPrefixOf] at h
    | cons y a =>
      simp only [List.isPrefixOf, Bool.and_eq_true] at h
      simp only [List.cons_append, List.isPrefixOf, Bool.and_eq_true]
      exact ⟨h.1, ih a h.2⟩

theorem isPrefixOf_trans (p a b : List Char) (h1 : p.isPrefixOf a = true)
    (h2 : a.isPrefixOf b = true) : p.isPrefixOf b = true := by
  induction p generalizing a b with
  | nil => simp [List.isPrefixOf]
  | cons x p ih =>
    cases a with
    | nil => simp [List.isPrefixOf] at h1
    | cons y a =>
      cases b with
      | nil => simp [List.isPrefixOf] at h2
      | cons z b =>
        simp only [List.isPrefixOf, Bool.and_eq_true, beq_iff_eq] at h1 h2 ⊢
        exact ⟨h1.1.trans h2.1, ih a b h1.2 h2.2⟩

theorem headD_splitOnChar_isPrefixOf (sep : Char) (cs : List Char) :
    ((splitOnChar sep cs).headD []).isPrefixOf cs = true := by
  induction cs with
  | nil => rfl
  | cons c rest ih =>
    by_cases h : c = sep
    · simp [splitOnChar, h, List.isPrefixOf]
    · obtain ⟨m, ms, hs⟩ := List.exists_cons_of_ne_nil (splitOnChar_ne_nil sep rest)
      simp only [splitOnChar, if_neg h, hs, consHead, List.headD_cons]
      simp only [List.isPrefixOf, Bool.and_eq_true]
      refine ⟨by simp, ?_⟩
      rw [hs] at ih
      simpa using ih

theorem string_data_append (a b : String) : (a ++ b).data = a.data ++ b.data := by
  cases a
  cases b
  rfl

theorem string_data_push (s : String) (c : Char) : (s.push c).data = s.data ++ [c] := by
  cases s
  rfl

theorem is_farcy_comment_of_marker (start : String) (s : List Char) :
    is_farcy_comment start (String.mk (start.data ++ s)) = true := by
  unfold is_farcy_comment IS_FARCY_COMMENT
  exact isPrefixOf_append_right _ _ _ (headD_splitOnChar_isPrefixOf 'v' start.data)

theorem extract_issues_marker_suffix (start : String) (s : List Char)
    (hnl : ('\n' : Char) ∉ start.data) :
    extract_issues start (String.mk (start.data ++ '\n' :: s)) =
      (splitOnChar '\n' s).map (fun l => String.mk (l.drop 2)) := by
  unfold extract_issues
  rw [if_pos (is_farcy_comment_of_marker start ('\n' :: s))]
  show ((splitOnChar '\n' (start.data ++ '\n' :: s)).drop 1).map _ = _
  rw [splitOnChar_append_cons '\n' start.data s hnl]
  simp only [List.drop_succ_cons, List.drop_zero]

theorem subtract_foldl_eq (b a : List (Int × List String)) :
    ∀ res : List (Int × List String),
    a.foldl
      (fun result kv =>
        let exclude := dictGet b kv.1
        let filtered := kv.2.filter (fun v => decide (v ∉ exclude))
        if filtered.isEmpty then result else result ++ [(kv.1, filtered)]) res =
      res ++ subtractAux b a := by
  induction a with
  | nil => intro res; simp [subtractAux]
  | cons kv rest ih =>
    intro res
    simp only [List.foldl_cons, subtractAux]
    by_cases hf : (kv.2.filter (fun v => decide (v ∉ dictGet b kv.1))).isEmpty = true
    · rw [if_pos hf, if_pos hf, ih]
    · rw [if_neg hf, if_neg hf, ih]
      simp

theorem subtract_eq_subtractAux (a b : List (Int × List String)) :
    subtract_issues_by_line a b = subtractAux b a := by
  unfold subtract_issues_by_line
  rw [subtract_foldl_eq b a []]
  rfl

theorem dictGet_cons (k' : Int) (vs : List String) (d : List (Int × List String)) (k : Int) :
    dictGet ((k', vs) :: d) k = if k' = k then vs else dictGet d k := by
  unfold dictGet
  by_cases h : k' = k
  · simp [List.find?_cons, h]
  · simp [List.find?_cons, h]

theorem hasKeyI_cons (k' : Int) (vs : List String) (d : List (Int × List String)) (k : Int) :
    hasKeyI ((k', vs) :: d) k = (decide (k' = k) || hasKeyI d k) := by
  simp [hasKeyI, List.any_cons]

theorem hasKeyI_iff_mem (d : List (Int × List String)) (k : Int) :
    hasKeyI d k = true ↔ k ∈ d.map Prod.fst := by
  unfold hasKeyI
  rw [List.any_eq_true]
  constructor
  · rintro ⟨p, hp, hpk⟩
    rw [decide_eq_true_eq] at hpk
    exact hpk ▸ List.mem_map_of_mem Prod.fst hp
  · intro h
    rcases List.mem_map.mp h with ⟨p, hp, hpk⟩
    exact ⟨p, hp, by rw [decide_eq_true_eq]; exact hpk⟩

theorem dictGet_eq_nil_of_not_hasKeyI (d : List (Int × List String)) (k : Int)
    (h : hasKeyI d k = false) : dictGet d k = [] := by
  unfold dictGet
  rw [List.find?_eq_none.mpr]
  intro p hp hpk
  rw [decide_eq_true_eq] at hpk
  have : hasKeyI d k = true := by
    unfold hasKeyI
    exact List.any_eq_true.mpr ⟨p, hp, by rw [decide_eq_true_eq]; exact hpk⟩
  rw [this] at h
  exact Bool.noConfusion h

theorem hasKeyI_subtractAux (b a : List (Int × List String)) (k : Int) :
    hasKeyI (subtractAux b a) k = true → hasKeyI a k = true := by
  induction a with
  | nil => intro h; simp [subtractAux, hasKeyI] at h
  | cons kv rest ih =>
    intro h
    obtain ⟨k', vs⟩ := kv
    rw [hasKeyI_cons]
    simp only [subtractAux] at h
    by_cases hf : (vs.filter (fun v => decide (v ∉ dictGet b k'))).isEmpty = true
    · rw [if_pos hf] at h
      rw [ih h]
      simp
    · rw [if_neg hf, hasKeyI_cons] at h
      simp only [Bool.or_eq_true] at h
      rcases h with h | h
      · rw [h]; simp
      · rw [ih h]; simp

theorem dictGet_of_mem_nodup (a : List (Int × List String)) (k : Int) (vs : List String) :
    (a.map Prod.fst).Nodup → (k, vs) ∈ a → dictGet a k = vs := by
  induction a with
  | nil => intro _ hmem; simp at hmem
  | cons kv rest ih =>
    intro hnd hmem
    obtain ⟨k', vs'⟩ := kv
    simp only [List.map_cons, List.nodup_cons] at hnd
    rcases List.mem_cons.mp hmem with heq | hmem
    · injection heq with h1 h2
      subst h1
      subst h2
      rw [dictGet_cons, if_pos rfl]
    · have hkm : k ∈ List.map Prod.fst rest := List.mem_map_of_mem Prod.fst hmem
      have hk : k' ≠ k := by
        intro hke
        rw [hke] at hnd
        exact hnd.1 hkm
      rw [dictGet_cons, if_neg hk]
      exact ih hnd.2 hmem

theorem dictGet_subtractAux (b a : List (Int × List String)) (k : Int) :
    (a.map Prod.fst).Nodup →
    dictGet (subtractAux b a) k =
      (dictGet a k).filter (fun v => decide (v ∉ dictGet b k)) := by
  induction a with
  | nil => intro _; simp [subtractAux, dictGet]
  | cons kv rest ih =>
    intro hnd
    obtain ⟨k', vs⟩ := kv
    simp only [List.map_cons, List.nodup_cons] at hnd
    simp only [subtractAux]
    by_cases hk : k' = k
    · subst hk
      rw [dictGet_cons, if_pos rfl]
      by_cases hf : (vs.filter (fun v => decide (v ∉ dictGet b k'))).isEmpty = true
      · rw [if_pos hf]
        have hno : hasKeyI (subtractAux b rest) k' = false := by
          cases hres : hasKeyI (subtractAux b rest) k' with
          | false => rfl
          | true =>
            have := (hasKeyI_iff_mem rest k').mp (hasKeyI_subtractAux b rest k' hres)
            exact absurd this hnd.1
        rw [dictGet_eq_nil_of_not_hasKeyI _ _ hno]
        exact (List.isEmpty_iff.mp hf).symm
      · rw [if_neg hf, dictGet_cons, if_pos rfl]
    · rw [dictGet_cons, if_neg hk]
      by_cases hf : (vs.filter (fun v => decide (v ∉ dictGet b k'))).isEmpty = true
      · rw [if_pos hf]
        exact ih hnd.2
      · rw [if_neg hf, dictGet_cons, if_neg hk]
        exact ih hnd.2

theorem hasKeyI_subtractAux_iff (b a : List (Int × List String)) (k : Int) :
    (a.map Prod.fst).Nodup →
    (hasKeyI (subtractAux b a) k = true ↔
      hasKeyI a k = true ∧
        (dictGet a k).filter (fun v => decide (v ∉ dictGet b k)) ≠ []) := by
  induction a with
  | nil => intro _; simp [subtractAux, hasKeyI, dictGet]
  | cons kv rest ih =>
    intro hnd
    obtain ⟨k', vs⟩ := kv
    simp only [List.map_cons, List.nodup_cons] at hnd
    simp only [subtractAux]
    by_cases hk : k' = k
    · subst hk
      rw [hasKeyI_cons, dictGet_cons, if_pos rfl]
      by_cases hf : (vs.filter (fun v => decide (v ∉ dictGet b k'))).isEmpty = true
      · rw [if_pos hf]
        have hno : hasKeyI (subtractAux b rest) k' = false := by
          cases hres : hasKeyI (subtractAux b rest) k' with
          | false => rfl
          | true =>
            have := (hasKeyI_iff_mem rest k').mp (hasKeyI_subtractAux b rest k' hres)
            exact absurd this hnd.1
        have hfe : vs.filter (fun v => decide (v ∉ dictGet b k')) = [] :=
          List.isEmpty_iff.mp hf
        rw [hno, hfe]
        simp
      · rw [if_neg hf, hasKeyI_cons]
        have hfe : vs.filter (fun v => decide (v ∉ dictGet b k')) ≠ [] := by
          intro hc
          rw [hc] at hf
          exact hf rfl
        constructor
        · intro _
          exact ⟨by simp, hfe⟩
        · intro _
          simp
    · rw [hasKeyI_cons, dictGet_cons, if_neg hk]
      have hdk : decide (k' = k) = false := by simp [hk]
      by_cases hf : (vs.filter (fun v => decide (v ∉ dictGet b k'))).isEmpty = true
      · rw [if_pos hf]
        simp only [hdk, Bool.false_or]
        exact ih hnd.2
      · rw [if_neg hf, hasKeyI_cons, hdk]
        simp only [hdk, Bool.false_or]
        exact ih hnd.2

theorem subtractAux_eq_nil (b a : List (Int × List String))
    (h : ∀ kv ∈ a, kv.2.filter (fun v => decide (v ∉ dictGet b kv.1)) = []) :
    subtractAux b a = [] := by
  induction a with
  | nil => rfl
  | cons kv rest ih =>
    simp only [subtractAux]
    rw [if_pos (by rw [h kv (List.mem_cons_self kv rest)]; rfl)]
    exact ih (fun kv' h' => h kv' (List.mem_cons_of_mem kv h'))

theorem subtractAux_self (a : List (Int × List String))
    (hnd : (a.map Prod.fst).Nodup) : subtractAux a a = [] := by
  apply subtractAux_eq_nil
  intro kv hkv
  have hget : dictGet a kv.1 = kv.2 := dictGet_of_mem_nodup a kv.1 kv.2 hnd (by
    rw [show (kv.1, kv.2) = kv from rfl]; exact hkv)
  rw [hget]
  rw [List.filter_eq_nil_iff]
  intro v hv
  simp [hv]

/-- C1: for every well-formed patch (every line a hunk header carrying a
parseable `new_start`, a context line starting with `' '`, an added line
starting with `'+'`, a removed line starting with `'-'`, or the no-newline
marker, with a hunk header preceding any content line), `added_lines`
returns a mapping whose keys are exactly the post-change line numbers of the
`'+'` lines, and the diff positions recorded for the `'+'` lines are
strictly increasing in the order the lines are scanned. -/
theorem claim1_added_lines_keys_positions (patch : String)
    (h : WellFormedPatch patch = true) :
    ∃ m, added_lines patch = Except.ok m ∧
      (∀ k, dictHasKey m k = true ↔ k ∈ (addedEvents patch).map Prod.fst) ∧
      List.Pairwise (· < ·) ((addedEvents patch).map Prod.snd) := by
  refine ⟨insertEvents [] (addedEvents patch), ?_, ?_, ?_⟩
  · exact addedLinesAux_eq_ok (patchLines patch) none 0 [] h
  · intro k
    rw [addedEvents, dictHasKey_insertEvents]
    simp [dictHasKey]
  · rw [List.pairwise_map]
    exact scanEventsAux_pairwise _ _ _

/-- Witness for C1 at the patch `"@@ -1,3 +1,4 @@\n a\n+b\n c"`. -/
theorem claim1_witness :
    WellFormedPatch "@@ -1,3 +1,4 @@\n a\n+b\n c" = true ∧
    (∃ m, added_lines "@@ -1,3 +1,4 @@\n a\n+b\n c" = Except.ok m ∧
      (∀ k, dictHasKey m k = true ↔
        k ∈ (addedEvents "@@ -1,3 +1,4 @@\n a\n+b\n c").map Prod.fst) ∧
      List.Pairwise (· < ·)
        ((addedEvents "@@ -1,3 +1,4 @@\n a\n+b\n c").map Prod.snd)) :=
  ⟨by decide, claim1_added_lines_keys_positions _ (by decide)⟩

/-- C2 counterexample: for the patch `@@ -1,3 +1,4 @@` followed by one
context line, one added line, one context line, the added line (post-change
line 2) is mapped to diff position 2, not to position 1 as the claim
states. -/
theorem claim2_counterexample :
    added_lines "@@ -1,3 +1,4 @@\n a\n+b\n c" = Except.ok [(2, 2)] ∧
    added_lines "@@ -1,3 +1,4 @@\n a\n+b\n c" ≠ Except.ok [(2, 1)] := by
  exact ⟨by decide, by decide⟩

/-- C2 amended: for that patch, `added_lines` maps the added line's
post-change line number 2 to diff position 2 — the added line's 0-based scan
index when the hunk header counts as index 0 (header 0, context 1,
added 2), which is also the single scan event of the patch. -/
theorem claim2_amended :
    added_lines "@@ -1,3 +1,4 @@\n a\n+b\n c" = Except.ok [(2, 2)] ∧
    addedEvents "@@ -1,3 +1,4 @@\n a\n+b\n c" = [(2, 2)] := by
  exact ⟨by decide, by decide⟩

/-- C3 counterexample: the patch consisting of the single marker line
`"\ No newline at end of file"` is well formed and `added_lines` maps it to
the empty dictionary; deleting its marker lines leaves the empty patch, on
which `added_lines` fails the `assert` instead of returning the same
mapping. -/
theorem claim3_counterexample :
    WellFormedPatch "\\ No newline at end of file" = true ∧
    added_lines "\\ No newline at end of file" = Except.ok [] ∧
    deleteNoNewlineLines "\\ No newline at end of file" = "" ∧
    added_lines (deleteNoNewlineLines "\\ No newline at end of file") =
      Except.error PatchError.assertionError := by
  exact ⟨by decide, by decide, by decide, by decide⟩

/-- C3 amended: for every patch in which at least one non-marker line
remains, `added_lines` returns exactly the same result on the patch with all
no-newline-marker lines deleted (the marker contributes no entry and does
not advance the position counter); only when every line is a marker does the
deletion yield the empty patch, on which `added_lines` errors instead. -/
theorem claim3_amended (patch : String)
    (h : (patchLines patch).filter (fun l => decide (l ≠ noNewlineMarker)) ≠ []) :
    added_lines (deleteNoNewlineLines patch) = added_lines patch := by
  have hnl : ∀ l ∈ (patchLines patch).filter (fun l => decide (l ≠ noNewlineMarker)),
      ('\n' : Char) ∉ l := by
    intro l hl
    exact not_mem_of_mem_splitOnChar '\n' patch.data l (List.mem_of_mem_filter hl)
  show addedLinesAux (splitOnChar '\n' (deleteNoNewlineLines patch).data) none 0 [] = _
  have hd : (deleteNoNewlineLines patch).data =
      joinOnChar '\n' ((patchLines patch).filter (fun l => decide (l ≠ noNewlineMarker))) :=
    rfl
  rw [hd, splitOnChar_joinOnChar '\n' _ h hnl]
  exact addedLinesAux_filter_marker (patchLines patch) none 0 []

/-- Witness for the amended C3 at a patch with a hunk, an added line, and a
trailing no-newline marker. -/
theorem claim3_witness :
    (patchLines "@@ -1,1 +1,1 @@\n+a\n\\ No newline at end of file").filter
      (fun l => decide (l ≠ noNewlineMarker)) ≠ [] ∧
    added_lines (deleteNoNewlineLines "@@ -1,1 +1,1 @@\n+a\n\\ No newline at end of file") =
      added_lines "@@ -1,1 +1,1 @@\n+a\n\\ No newline at end of file" :=
  ⟨by decide, claim3_amended _ (by decide)⟩

/-- C4: on every patch in which a `'+'` line occurs before any `'@@'` hunk
header, `added_lines` fails with an error (the Python `TypeError` on the
undefined `lineno`, embedded as an error value) and returns no mapping at
all — in particular no mapping entry keyed by the undefined line number. -/
theorem claim4_error_added_before_header (patch : String)
    (h : addedBeforeHeader (patchLines patch) = true) :
    ∃ e, added_lines patch = Except.error e :=
  addedLinesAux_error_of_addedBeforeHeader (patchLines patch) 0 [] h

/-- Witness for C4 at the patch `"+new line before any header"`. -/
theorem claim4_witness :
    addedBeforeHeader (patchLines "+new line before any header") = true ∧
    ∃ e, added_lines "+new line before any header" = Except.error e :=
  ⟨by decide, claim4_error_added_before_header _ (by decide)⟩

/-- C5: on every patch containing a malformed line — a hunk header whose
`new_start` is missing or non-numeric, or a content line whose prefix is
none of the recognized ones — `added_lines` fails with an error instead of
returning a mapping. -/
theorem claim5_error_malformed (patch : String)
    (h : (patchLines patch).any badLine = true) :
    ∃ e, added_lines patch = Except.error e := by
  rcases List.any_eq_true.mp h with ⟨l, hl, hb⟩
  exact addedLinesAux_error_of_badLine (patchLines patch) none 0 [] ⟨l, hl, hb⟩

/-- Witness for C5 at a patch with a non-numeric `new_start`. -/
theorem claim5_witness :
    (patchLines "@@ -1,3 +x,4 @@\n a").any badLine = true ∧
    ∃ e, added_lines "@@ -1,3 +x,4 @@\n a" = Except.error e :=
  ⟨by decide, claim5_error_malformed _ (by decide)⟩

/-- C6 counterexample: `added_lines` does not treat the empty final segment
of the split as absent — the empty patch raises the `AssertionError` rather
than yielding an empty mapping, and appending a trailing newline to a patch
that maps to `{1: 1}` turns the result into the same error. -/
theorem claim6_counterexample :
    added_lines "" = Except.error PatchError.assertionError ∧
    added_lines "@@ -1,1 +1,1 @@\n+a" = Except.ok [(1, 1)] ∧
    added_lines "@@ -1,1 +1,1 @@\n+a\n" = Except.error PatchError.assertionError := by
  exact ⟨by decide, by decide, by decide⟩

/-- C6 amended: Python's `split('\n')` keeps the empty final segment, so
appending a trailing newline to any patch text makes `added_lines` fail
(the empty final line reaches the `assert`), and the empty patch — a single
empty line — fails with the `AssertionError` instead of yielding an empty
mapping. -/
theorem claim6_amended (patch : String) :
    (∃ e, added_lines (patch.push '\n') = Except.error e) ∧
    added_lines "" = Except.error PatchError.assertionError := by
  constructor
  · have hl : patchLines (patch.push '\n') = patchLines patch ++ [[]] := by
      unfold patchLines
      rw [string_data_push, splitOnChar_append_sep]
    have hbad : ([] : List Char) ∈ patchLines (patch.push '\n') := by
      rw [hl]
      exact List.mem_append_right _ (List.mem_singleton.mpr rfl)
    exact addedLinesAux_error_of_badLine _ none 0 [] ⟨[], hbad, by decide⟩
  · decide

/-- C7: for every marker constant without a newline and every text,
`extract_issues` returns the empty list on non-bot text; on bot text it
returns every line after the first with exactly its first two characters
removed, in order — in particular `["issue one", "issue two"]` on
`marker ++ "\n- issue one\n- issue two"`, and lines without a bullet still
lose their first two characters. -/
theorem claim7_extract_issues (start text : String)
    (hnl : ('\n' : Char) ∉ start.data) :
    (is_farcy_comment start text = false → extract_issues start text = []) ∧
    (is_farcy_comment start text = true →
      extract_issues start text =
        ((splitOnChar '\n' text.data).drop 1).map (fun l => String.mk (l.drop 2))) ∧
    extract_issues start (start ++ "\n- issue one\n- issue two") =
      ["issue one", "issue two"] ∧
    extract_issues start (start ++ "\n* no bullet\nxy") = ["no bullet", ""] := by
  refine ⟨?_, ?_, ?_, ?_⟩
  · intro h
    simp [extract_issues, h]
  · intro h
    simp [extract_issues, h]
  · have hd : (start ++ "\n- issue one\n- issue two") =
        String.mk (start.data ++ '\n' :: "- issue one\n- issue two".data) := by
      cases start
      rfl
    rw [hd, extract_issues_marker_suffix start _ hnl]
    decide
  · have hd : (start ++ "\n* no bullet\nxy") =
        String.mk (start.data ++ '\n' :: "* no bullet\nxy".data) := by
      cases start
      rfl
    rw [hd, extract_issues_marker_suffix start _ hnl]
    decide

/-- Witness for C7 at the marker `"_farcy_v1_"` and the non-bot text
`"unrelated"`. -/
theorem claim7_witness :
    (('\n' : Char) ∉ ("_farcy_v1_" : String).data) ∧
    ((is_farcy_comment "_farcy_v1_" "unrelated" = false →
        extract_issues "_farcy_v1_" "unrelated" = []) ∧
      (is_farcy_comment "_farcy_v1_" "unrelated" = true →
        extract_issues "_farcy_v1_" "unrelated" =
          ((splitOnChar '\n' ("unrelated" : String).data).drop 1).map
            (fun l => String.mk (l.drop 2))) ∧
      extract_issues "_farcy_v1_" ("_farcy_v1_" ++ "\n- issue one\n- issue two") =
        ["issue one", "issue two"] ∧
      extract_issues "_farcy_v1_" ("_farcy_v1_" ++ "\n* no bullet\nxy") =
        ["no bullet", ""]) :=
  ⟨by decide, claim7_extract_issues "_farcy_v1_" "unrelated" (by decide)⟩

/-- C8: `issues_by_line` ignores comments whose path differs from the given
one and comments whose body extracts no issues, and otherwise extends the
entry at the comment's position in input order — in particular, for the two
comments of the claim only the `"a.py"` one contributes, giving
`{5: ["foo"]}`. -/
theorem claim8_issues_by_line (start path : String) (c : Comment)
    (l1 l2 : List Comment) (hnl : ('\n' : Char) ∉ start.data) :
    (c.path ≠ path →
      issues_by_line start (l1 ++ c :: l2) path = issues_by_line start (l1 ++ l2) path) ∧
    (extract_issues start c.body = [] →
      issues_by_line start (l1 ++ c :: l2) path = issues_by_line start (l1 ++ l2) path) ∧
    issues_by_line start
      [⟨"a.py", 5, start ++ "\n- foo"⟩, ⟨"b.py", 5, start ++ "\n- bar"⟩] "a.py" =
      [(5, ["foo"])] := by
  refine ⟨?_, ?_, ?_⟩
  · intro h
    unfold issues_by_line filter_comments_by_path
    rw [List.filter_append, List.filter_append, List.filter_cons]
    have hp : decide (c.path = path) = false := by simp [h]
    rw [hp]
    simp
  · intro h
    unfold issues_by_line filter_comments_by_path
    rw [List.filter_append, List.filter_append, List.filter_cons]
    by_cases hp : decide (c.path = path) = true
    · rw [if_pos hp]
      rw [List.foldl_append, List.foldl_append, List.foldl_cons]
      simp [h]
    · rw [if_neg hp]
  · have h1 : extract_issues start (start ++ "\n- foo") = ["foo"] := by
      have hd : (start ++ "\n- foo") =
          String.mk (start.data ++ '\n' :: "- foo".data) := by
        cases start
        rfl
      rw [hd, extract_issues_marker_suffix start _ hnl]
      decide
    have hf : filter_comments_by_path
        [⟨"a.py", 5, start ++ "\n- foo"⟩, ⟨"b.py", 5, start ++ "\n- bar"⟩] "a.py" =
        [⟨"a.py", 5, start ++ "\n- foo"⟩] := rfl
    unfold issues_by_line
    rw [hf]
    simp only [List.foldl_cons, List.foldl_nil]
    simp [h1, dictExtend]

/-- Witness for C8 at the marker `"_farcy_v1_"`, path `"p.py"`, a comment
with a different path, and empty surrounding lists. -/
theorem claim8_witness :
    (('\n' : Char) ∉ ("_farcy_v1_" : String).data) ∧
    (((⟨"q.py", 1, "body"⟩ : Comment).path ≠ "p.py" →
        issues_by_line "_farcy_v1_" ([] ++ (⟨"q.py", 1, "body"⟩ : Comment) :: []) "p.py" =
          issues_by_line "_farcy_v1_" ([] ++ []) "p.py") ∧
      (extract_issues "_farcy_v1_" (⟨"q.py", 1, "body"⟩ : Comment).body = [] →
        issues_by_line "_farcy_v1_" ([] ++ (⟨"q.py", 1, "body"⟩ : Comment) :: []) "p.py" =
          issues_by_line "_farcy_v1_" ([] ++ []) "p.py") ∧
      issues_by_line "_farcy_v1_"
        [⟨"a.py", 5, "_farcy_v1_" ++ "\n- foo"⟩, ⟨"b.py", 5, "_farcy_v1_" ++ "\n- bar"⟩]
        "a.py" = [(5, ["foo"])]) :=
  ⟨by decide, claim8_issues_by_line "_farcy_v1_" "p.py" ⟨"q.py", 1, "body"⟩ [] [] (by decide)⟩

/-- C9: for issue sets with duplicate-free keys (as Python dicts are),
`subtract_issues_by_line a b` keeps, at each position of `a`, exactly the
strings of `a`'s list that are absent from `b`'s list for that position (the
empty list when `b` lacks the position), in `a`'s order; positions whose
filtered list is empty are omitted and positions only in `b` are ignored;
subtracting an issue set from itself gives the empty result, and the claim's
concrete example evaluates to `{5: ["baz"]}`. -/
theorem claim9_subtract_issues (a b : List (Int × List String)) (k : Int)
    (hnd : (a.map Prod.fst).Nodup) :
    (dictGet (subtract_issues_by_line a b) k =
      (dictGet a k).filter (fun v => decide (v ∉ dictGet b k))) ∧
    (hasKeyI (subtract_issues_by_line a b) k = true ↔
      hasKeyI a k = true ∧
        (dictGet a k).filter (fun v => decide (v ∉ dictGet b k)) ≠ []) ∧
    subtract_issues_by_line a a = [] ∧
    subtract_issues_by_line [(5, ["foo", "baz"])] [(5, ["foo"])] = [(5, ["baz"])] := by
  refine ⟨?_, ?_, ?_, by decide⟩
  · rw [subtract_eq_subtractAux]
    exact dictGet_subtractAux b a k hnd
  · rw [subtract_eq_subtractAux]
    exact hasKeyI_subtractAux_iff b a k hnd
  · rw [subtract_eq_subtractAux]
    exact subtractAux_self a hnd

/-- Witness for C9 at `a = {5: ["foo", "baz"]}`, `b = {5: ["foo"]}`,
`k = 5`. -/
theorem claim9_witness :
    (([(5, ["foo", "baz"])] : List (Int × List String)).map Prod.fst).Nodup ∧
    ((dictGet (subtract_issues_by_line [(5, ["foo", "baz"])] [(5, ["foo"])]) 5 =
        (dictGet [(5, ["foo", "baz"])] 5).filter
          (fun v => decide (v ∉ dictGet [(5, ["foo"])] 5))) ∧
      (hasKeyI (subtract_issues_by_line [(5, ["foo", "baz"])] [(5, ["foo"])]) 5 = true ↔
        hasKeyI [(5, ["foo", "baz"])] 5 = true ∧
          (dictGet [(5, ["foo", "baz"])] 5).filter
            (fun v => decide (v ∉ dictGet [(5, ["foo"])] 5)) ≠ []) ∧
      subtract_issues_by_line [(5, ["foo", "baz"])] [(5, ["foo", "baz"])] = [] ∧
      subtract_issues_by_line [(5, ["foo", "baz"])] [(5, ["foo"])] = [(5, ["baz"])]) :=
  ⟨by decide, claim9_subtract_issues [(5, ["foo", "baz"])] [(5, ["foo"])] 5 (by decide)⟩

/-- C10: for any value of the `FARCY_COMMENT_START` constant, the derived
`IS_FARCY_COMMENT` prefix (the constant truncated at its first `'v'`) is a
prefix of the constant itself, so every text starting with the full
constant is classified as a Farcy comment. -/
theorem claim10_marker_truncation (start t : String)
    (h : start.data.isPrefixOf t.data = true) :
    (IS_FARCY_COMMENT start).isPrefixOf start.data = true ∧
    is_farcy_comment start t = true := by
  have hp : (IS_FARCY_COMMENT start).isPrefixOf start.data = true :=
    headD_splitOnChar_isPrefixOf 'v' start.data
  exact ⟨hp, isPrefixOf_trans _ _ _ hp h⟩

/-- Witness for C10 at the constant `"_farcy_v1_"` and a text starting with
it. -/
theorem claim10_witness :
    ("_farcy_v1_" : String).data.isPrefixOf ("_farcy_v1_ hello" : String).data = true ∧
    ((IS_FARCY_COMMENT "_farcy_v1_").isPrefixOf ("_farcy_v1_" : String).data = true ∧
      is_farcy_comment "_farcy_v1_" "_farcy_v1_ hello" = true) :=
  ⟨by decide, claim10_marker_truncation "_farcy_v1_" "_farcy_v1_ hello" (by decide)⟩

end Farcy
